import Mathlib

/-!
Verification of `run-quality-gates.py`: a script that runs four quality-gate
steps (install, build, test, lint) through a WSL shell, printing progress,
stopping at the first failure, and exiting 0 on full success or 1 on any
failure.

The script is embedded shallowly.  Each `subprocess.run` call is modelled by
consulting an environment `env : Nat → Outcome` giving the outcome of invoking
step `i` (0-indexed): either the command completed with an exit code and
captured stdout/stderr texts, or the invocation raised an exception.  A run
produces a trace of events — one event per `print` statement executed and one
per subprocess invocation attempted — together with the process exit code.
-/

namespace QualityGates

/-- Outcome of attempting one `subprocess.run` call: the command completed
with a return code and captured stdout/stderr (as text, since
`capture_output=True, text=True`), or the invocation itself raised an
exception carrying a message (as caught by `except Exception as e`). -/
inductive Outcome where
  | completed (returncode : Int) (stdout : String) (stderr : String)
  | raised (msg : String)
deriving DecidableEq, Repr

/-- One step of the script: its start banner, the bash command string run
inside WSL, and its success confirmation line. -/
structure Step where
  banner : String
  command : String
  successMsg : String
deriving DecidableEq, Repr

/-- The four fixed steps, with the exact strings from the script. -/
def steps : List Step :=
  [⟨"Step 1: Installing dependencies...",
    "cd /home/skynet/freshtrack-pro-local/fresh-staged && npm install",
    "✓ Dependencies installed successfully"⟩,
   ⟨"Step 2: Running build process...",
    "cd /home/skynet/freshtrack-pro-local/fresh-staged && npm run build",
    "✓ Build completed successfully"⟩,
   ⟨"Step 3: Running test suite...",
    "cd /home/skynet/freshtrack-pro-local/fresh-staged && npm test",
    "✓ All tests passed"⟩,
   ⟨"Step 4: Checking for linting issues...",
    "cd /home/skynet/freshtrack-pro-local/fresh-staged && npm run lint",
    "✓ No linting issues found"⟩]

/-- The full argv each step is dispatched with:
`['wsl', '-d', 'Ubuntu', '-e', 'bash', '-c', cmd]`. -/
def wslArgv (cmd : String) : List String :=
  ["wsl", "-d", "Ubuntu", "-e", "bash", "-c", cmd]

/-- One `print` statement of the script, tagged by which statement it is and
carrying its dynamic payload. -/
inductive Msg where
  | header
  | blank
  | banner (s : String)
  | stdoutPass (s : String)
  | success (s : String)
  | celebrate
  | failSummary (rc : Int)
  | failOutputHeader
  | failStdout (s : String)
  | failErrorHeader
  | failStderr (s : String)
  | genericErr (s : String)
deriving DecidableEq, Repr

/-- The exact string each print statement passes to `print`. -/
def render : Msg → String
  | .header => "Running quality gates for freshtrack-pro project..."
  | .blank => ""
  | .banner s => s
  | .stdoutPass s => s
  | .success s => s
  | .celebrate => "✨ All quality gates passed! ✨"
  | .failSummary rc => s!"Error: Command failed with exit code {rc}"
  | .failOutputHeader => "\nOutput:"
  | .failStdout s => s
  | .failErrorHeader => "\nError:"
  | .failStderr s => s
  | .genericErr s => s!"Error: {s}"

/-- An observable event of a run: executing a `print` statement, or
attempting a `subprocess.run` invocation of step `idx` with the given argv. -/
inductive Ev where
  | print (m : Msg)
  | invoke (idx : Nat) (argv : List String)
deriving DecidableEq, Repr

/-- Result of a run: the ordered event trace and the process exit code. -/
structure RunResult where
  trace : List Ev
  exitCode : Int
deriving DecidableEq, Repr

/-- The body of the `try` block, from the step at index `base` on.  For each
step: print the banner, invoke the command; if it raised, the generic
`except Exception` handler prints `Error: {e}` and exits 1; if it completed
with return code 0, print captured stdout when non-empty, the success line
and a blank line, then continue; otherwise `check=True` raises
`CalledProcessError`, whose handler prints the exit-code summary, then the
labeled stdout and stderr dumps when non-empty, and exits 1.  After the last
step, the celebratory message is printed and the process ends with code 0. -/
def runSteps (env : Nat → Outcome) : Nat → List Step → RunResult
  | _, [] => ⟨[.print .celebrate], 0⟩
  | base, st :: rest =>
    match env base with
    | .completed rc out err =>
      if rc = 0 then
        ⟨[.print (.banner st.banner), .invoke base (wslArgv st.command)]
           ++ (if out = "" then [] else [.print (.stdoutPass out)])
           ++ [.print (.success st.successMsg), .print .blank]
           ++ (runSteps env (base + 1) rest).trace,
         (runSteps env (base + 1) rest).exitCode⟩
      else
        ⟨[.print (.banner st.banner), .invoke base (wslArgv st.command),
            .print (.failSummary rc)]
           ++ (if out = "" then []
               else [.print .failOutputHeader, .print (.failStdout out)])
           ++ (if err = "" then []
               else [.print .failErrorHeader, .print (.failStderr err)]),
         1⟩
    | .raised msg =>
      ⟨[.print (.banner st.banner), .invoke base (wslArgv st.command),
          .print (.genericErr msg)],
       1⟩

/-- A whole run of the script: the two header prints, then the `try` block
over the four steps. -/
def run (env : Nat → Outcome) : RunResult :=
  ⟨[.print .header, .print .blank] ++ (runSteps env 0 steps).trace,
   (runSteps env 0 steps).exitCode⟩

/-- The step indices whose commands were invoked, in order. -/
def invokedOf (t : List Ev) : List Nat :=
  t.filterMap fun e =>
    match e with
    | .invoke i _ => some i
    | .print _ => none

/-- The step indices invoked during a run, in order. -/
def invoked (env : Nat → Outcome) : List Nat :=
  invokedOf (run env).trace

/-- The console output of a run: the string printed by each executed
`print` statement, in order. -/
def output (env : Nat → Outcome) : List String :=
  (run env).trace.filterMap fun e =>
    match e with
    | .print m => some (render m)
    | .invoke _ _ => none

/-- `precedesB a b t` holds when some occurrence of `a` in `t` comes strictly
before some occurrence of `b`. -/
def precedesB (a b : Ev) : List Ev → Bool
  | [] => false
  | x :: xs => (decide (x = a) && xs.any fun y => decide (y = b)) || precedesB a b xs

/-- Step `j`: the external command completed with exit code 0. -/
def passes (env : Nat → Outcome) (j : Nat) : Prop :=
  ∃ out err, env j = .completed 0 out err

/-- Environment in which every command fails with exit code 2 and non-empty
captured output. -/
def envX : Nat → Outcome := fun _ => .completed 2 "boom" "bang"

/-- Environment in which every command succeeds with non-empty captured
stdout and stderr. -/
def envP : Nat → Outcome := fun _ => .completed 0 "ok" "warn"

/-- Environment in which every invocation raises. -/
def envR : Nat → Outcome := fun _ => .raised "wsl not found"

/-! ### Helper lemmas -/

theorem invokedOf_append (a b : List Ev) :
    invokedOf (a ++ b) = invokedOf a ++ invokedOf b := by
  simp [invokedOf]

theorem invokedOf_opt2 (c : Prop) [Decidable c] (a b : Msg) :
    invokedOf (if c then [] else [.print a, .print b]) = [] := by
  split <;> rfl

theorem invokedOf_opt1 (c : Prop) [Decidable c] (a : Msg) :
    invokedOf (if c then [] else [.print a]) = [] := by
  split <;> rfl

theorem range_map_shift (n base : Nat) :
    base :: (List.range n).map (· + (base + 1)) = (List.range (n + 1)).map (· + base) := by
  have hfun : ((· + base) ∘ Nat.succ) = (· + (base + 1)) := by
    funext x; simp [Function.comp]; omega
  rw [List.range_succ_eq_map, List.map_cons, List.map_map, hfun]
  simp

/-- Failure path: if steps `base ≤ j < base + k` all pass and the command of
step `base + k` completes with a non-zero code, then the trace ends with the
exit-code summary followed by the optional labeled stdout and stderr dumps,
the exit code is 1, and exactly the steps `base .. base + k` were invoked. -/
theorem runSteps_fail (env : Nat → Outcome) (rc : Int) (out err : String) :
    ∀ (l : List Step) (k base : Nat), k < l.length →
    (∀ j, base ≤ j → j < base + k → passes env j) →
    env (base + k) = .completed rc out err → rc ≠ 0 →
    ∃ l1,
      (runSteps env base l).trace
        = l1 ++ [.print (.failSummary rc)]
          ++ (if out = "" then []
              else [.print .failOutputHeader, .print (.failStdout out)])
          ++ (if err = "" then []
              else [.print .failErrorHeader, .print (.failStderr err)])
      ∧ (runSteps env base l).exitCode = 1
      ∧ invokedOf (runSteps env base l).trace = (List.range (k + 1)).map (· + base) := by
  intro l
  induction l with
  | nil => intro k base hk _ _ _; simp at hk
  | cons st rest ih =>
    intro k base hk hpass henv hrc
    cases k with
    | zero =>
      have hbase : env base = .completed rc out err := by simpa using henv
      refine ⟨[.print (.banner st.banner), .invoke base (wslArgv st.command)], ?_, ?_, ?_⟩
      · simp [runSteps, hbase, hrc]
      · simp [runSteps, hbase, hrc]
      · rcases eq_or_ne out "" with ho | ho <;> rcases eq_or_ne err "" with he | he <;>
          simp [runSteps, hbase, hrc, invokedOf, ho, he, List.range_succ]
    | succ k =>
      obtain ⟨o, e, hbase⟩ := hpass base (le_refl base) (by omega)
      have hk' : k < rest.length := by simpa using hk
      have hpass' : ∀ j, base + 1 ≤ j → j < (base + 1) + k → passes env j :=
        fun j h1 h2 => hpass j (by omega) (by omega)
      have henv' : env ((base + 1) + k) = .completed rc out err := by
        rw [show (base + 1) + k = base + (k + 1) by omega]; exact henv
      obtain ⟨l1', hshape, hexit, hinv⟩ := ih k (base + 1) hk' hpass' henv' hrc
      refine ⟨[.print (.banner st.banner), .invoke base (wslArgv st.command)]
        ++ (if o = "" then [] else [.print (.stdoutPass o)])
        ++ [.print (.success st.successMsg), .print .blank] ++ l1', ?_, ?_, ?_⟩
      · simp only [runSteps, hbase, reduceIte]
        rw [hshape]
        simp
      · simp only [runSteps, hbase, reduceIte]
        exact hexit
      · simp only [runSteps, hbase, reduceIte]
        rw [invokedOf_append, invokedOf_append, invokedOf_append, hinv, invokedOf_opt1]
        simp only [invokedOf, List.filterMap_cons, List.filterMap_nil, List.nil_append,
          List.append_nil]
        exact range_map_shift (k + 1) base

/-- Number of times the celebratory success statement was executed in a
trace. -/
def countCelebrate : List Ev → Nat
  | [] => 0
  | x :: xs => countCelebrate xs + (if x = .print .celebrate then 1 else 0)

theorem countCelebrate_append (a b : List Ev) :
    countCelebrate (a ++ b) = countCelebrate a + countCelebrate b := by
  induction a with
  | nil => simp [countCelebrate]
  | cons x xs ih => simp [countCelebrate, ih]; omega

/-- Raised path: if steps `base ≤ j < base + k` all pass and invoking step
`base + k` raises, the trace ends with the generic `Error: {e}` print, the
exit code is 1, and exactly the steps `base .. base + k` were invoked. -/
theorem runSteps_raised (env : Nat → Outcome) (msg : String) :
    ∀ (l : List Step) (k base : Nat), k < l.length →
    (∀ j, base ≤ j → j < base + k → passes env j) →
    env (base + k) = .raised msg →
    ∃ l1,
      (runSteps env base l).trace = l1 ++ [.print (.genericErr msg)]
      ∧ (runSteps env base l).exitCode = 1
      ∧ invokedOf (runSteps env base l).trace = (List.range (k + 1)).map (· + base) := by
  intro l
  induction l with
  | nil => intro k base hk _ _; simp at hk
  | cons st rest ih =>
    intro k base hk hpass henv
    cases k with
    | zero =>
      have hbase : env base = .raised msg := by simpa using henv
      refine ⟨[.print (.banner st.banner), .invoke base (wslArgv st.command)], ?_, ?_, ?_⟩
      · simp [runSteps, hbase]
      · simp [runSteps, hbase]
      · simp [runSteps, hbase, invokedOf, List.range_succ]
    | succ k =>
      obtain ⟨o, e, hbase⟩ := hpass base (le_refl base) (by omega)
      have hk' : k < rest.length := by simpa using hk
      have hpass' : ∀ j, base + 1 ≤ j → j < (base + 1) + k → passes env j :=
        fun j h1 h2 => hpass j (by omega) (by omega)
      have henv' : env ((base + 1) + k) = .raised msg := by
        rw [show (base + 1) + k = base + (k + 1) by omega]; exact henv
      obtain ⟨l1', hshape, hexit, hinv⟩ := ih k (base + 1) hk' hpass' henv'
      refine ⟨[.print (.banner st.banner), .invoke base (wslArgv st.command)]
        ++ (if o = "" then [] else [.print (.stdoutPass o)])
        ++ [.print (.success st.successMsg), .print .blank] ++ l1', ?_, ?_, ?_⟩
      · simp only [runSteps, hbase, reduceIte]
        rw [hshape]
        simp
      · simp only [runSteps, hbase, reduceIte]
        exact hexit
      · simp only [runSteps, hbase, reduceIte]
        rw [invokedOf_append, invokedOf_append, invokedOf_append, hinv, invokedOf_opt1]
        simp only [invokedOf, List.filterMap_cons, List.filterMap_nil, List.nil_append,
          List.append_nil]
        exact range_map_shift (k + 1) base

/-- All-pass path: if every step of `l` passes, the exit code is 0 and the
celebratory print statement is executed exactly once. -/
theorem runSteps_allPass (env : Nat → Outcome) :
    ∀ (l : List Step) (base : Nat),
    (∀ j, base ≤ j → j < base + l.length → passes env j) →
    (runSteps env base l).exitCode = 0 ∧
    countCelebrate (runSteps env base l).trace = 1 := by
  intro l
  induction l with
  | nil => intro base _; exact ⟨rfl, by simp [runSteps, countCelebrate]⟩
  | cons st rest ih =>
    intro base hpass
    obtain ⟨o, e, hbase⟩ := hpass base (le_refl base) (by simp)
    obtain ⟨hexit, hcount⟩ := ih (base + 1)
      (fun j h1 h2 => hpass j (by omega) (by simp at h2 ⊢; omega))
    constructor
    · simp only [runSteps, hbase, reduceIte]
      exact hexit
    · simp only [runSteps, hbase, reduceIte]
      rcases eq_or_ne o "" with h1 | h1 <;>
        simp [h1, countCelebrate_append, countCelebrate, hcount]

/-- The exit code of the step loop is 0 or 1, and it is 0 exactly when every
step passes. -/
theorem runSteps_exit (env : Nat → Outcome) :
    ∀ (l : List Step) (base : Nat),
    ((runSteps env base l).exitCode = 0 ∨ (runSteps env base l).exitCode = 1) ∧
    ((runSteps env base l).exitCode = 0 ↔ ∀ k, k < l.length → passes env (base + k)) := by
  intro l
  induction l with
  | nil => intro base; exact ⟨Or.inl rfl, by simp [runSteps]⟩
  | cons st rest ih =>
    intro base
    cases hbase : env base with
    | raised msg =>
      refine ⟨Or.inr (by simp [runSteps, hbase]), ?_, ?_⟩
      · intro h; exfalso; simp [runSteps, hbase] at h
      · intro h; exfalso
        obtain ⟨o, e, he⟩ := h 0 (by simp)
        rw [Nat.add_zero, hbase] at he
        cases he
    | completed rc o e =>
      by_cases hrc : rc = 0
      · subst hrc
        obtain ⟨h01, hiff⟩ := ih (base + 1)
        refine ⟨?_, ?_⟩
        · simpa [runSteps, hbase] using h01
        · rw [show (runSteps env base (st :: rest)).exitCode
              = (runSteps env (base + 1) rest).exitCode from by simp [runSteps, hbase]]
          rw [hiff]
          constructor
          · intro h k hk
            cases k with
            | zero => exact ⟨o, e, by simpa using hbase⟩
            | succ k =>
              have := h k (by simpa using hk)
              rw [show (base + 1) + k = base + (k + 1) by omega] at this
              exact this
          · intro h k hk
            have := h (k + 1) (by simp; omega)
            rw [show base + (k + 1) = (base + 1) + k by omega] at this
            exact this
      · refine ⟨Or.inr (by simp [runSteps, hbase, hrc]), ?_, ?_⟩
        · intro h; exfalso; simp [runSteps, hbase, hrc] at h
        · intro h; exfalso
          obtain ⟨o', e', he⟩ := h 0 (by simp)
          rw [Nat.add_zero, hbase] at he
          injection he with h1
          exact hrc h1

/-- The indices invoked by the step loop form an initial segment of the
indices of `l`, shifted by `base`. -/
theorem runSteps_invoked_range (env : Nat → Outcome) :
    ∀ (l : List Step) (base : Nat),
    ∃ n, n ≤ l.length ∧
      invokedOf (runSteps env base l).trace = (List.range n).map (· + base) := by
  intro l
  induction l with
  | nil => intro base; exact ⟨0, by simp, by simp [runSteps, invokedOf]⟩
  | cons st rest ih =>
    intro base
    cases hbase : env base with
    | raised msg =>
      exact ⟨1, by simp, by simp [runSteps, hbase, invokedOf, List.range_succ]⟩
    | completed rc o e =>
      by_cases hrc : rc = 0
      · subst hrc
        obtain ⟨n, hn, hinv⟩ := ih (base + 1)
        refine ⟨n + 1, by simp; omega, ?_⟩
        simp only [runSteps, hbase, reduceIte]
        rw [invokedOf_append, invokedOf_append, invokedOf_append, hinv, invokedOf_opt1]
        simp only [invokedOf, List.filterMap_cons, List.filterMap_nil, List.nil_append,
          List.append_nil]
        exact range_map_shift n base
      · refine ⟨1, by simp, ?_⟩
        rcases eq_or_ne o "" with h1 | h1 <;> rcases eq_or_ne e "" with h2 | h2 <;>
          simp [runSteps, hbase, hrc, invokedOf, h1, h2, List.range_succ]

theorem invokedOf_passBlock (st : Step) (base : Nat) (o : String) (t : List Ev) :
    invokedOf ([Ev.print (Msg.banner st.banner), Ev.invoke base (wslArgv st.command)]
      ++ (if o = "" then [] else [Ev.print (Msg.stdoutPass o)])
      ++ [Ev.print (Msg.success st.successMsg), Ev.print Msg.blank] ++ t)
    = base :: invokedOf t := by
  rw [invokedOf_append, invokedOf_append, invokedOf_append, invokedOf_opt1]
  show [base] ++ ([] ++ ([] ++ invokedOf t)) = base :: invokedOf t
  simp

/-- A step is only invoked after every earlier step passed. -/
theorem runSteps_invoked_passes (env : Nat → Outcome) :
    ∀ (l : List Step) (base j : Nat),
    j ∈ invokedOf (runSteps env base l).trace →
    ∀ i, base ≤ i → i < j → passes env i := by
  intro l
  induction l with
  | nil => intro base j hj; exfalso; simp [runSteps, invokedOf] at hj
  | cons st rest ih =>
    intro base j hj i hbi hij
    cases hbase : env base with
    | raised msg =>
      simp [runSteps, hbase, invokedOf] at hj
      subst hj
      exact absurd hbi (by omega)
    | completed rc o e =>
      by_cases hrc : rc = 0
      · subst hrc
        have hj' : j = base ∨ j ∈ invokedOf (runSteps env (base + 1) rest).trace := by
          simp only [runSteps, hbase, reduceIte] at hj
          rw [invokedOf_passBlock] at hj
          simpa using hj
        rcases hj' with h | h
        · subst h; exact absurd hbi (by omega)
        · rcases Nat.lt_or_ge i (base + 1) with h1 | h1
          · have hi : i = base := by omega
            subst hi; exact ⟨o, e, hbase⟩
          · exact ih (base + 1) j h i h1 hij
      · have hjb : j = base := by
          rcases eq_or_ne o "" with h1 | h1 <;> rcases eq_or_ne e "" with h2 | h2 <;>
            simp [runSteps, hbase, hrc, invokedOf, h1, h2] at hj <;> exact hj
        subst hjb
        exact absurd hbi (by omega)

/-- Two environments agree up to the captured stderr of steps that pass. -/
def stderrAgnostic (env env' : Nat → Outcome) : Prop :=
  ∀ j, env j = env' j ∨
    ∃ o e e', env j = .completed 0 o e ∧ env' j = .completed 0 o e'

/-- The step loop never reads the captured stderr of a passing step. -/
theorem runSteps_congr (env env' : Nat → Outcome) (h : stderrAgnostic env env') :
    ∀ (l : List Step) (base : Nat), runSteps env base l = runSteps env' base l := by
  intro l
  induction l with
  | nil => intro base; rfl
  | cons st rest ih =>
    intro base
    rcases h base with heq | ⟨o, e, e', h1, h2⟩
    · cases hb : env base with
      | raised msg => simp [runSteps, ← heq, hb]
      | completed rc o e =>
        by_cases hrc : rc = 0 <;> simp [runSteps, ← heq, hb, hrc, ih]
    · simp [runSteps, h1, h2, ih]

/-- Pass path around one step: if the steps before step `base + k` pass and
step `base + k` passes with non-empty captured stdout, the trace contains the
contiguous block banner, invocation, stdout dump, success line, blank line
for that step. -/
theorem runSteps_step_block (env : Nat → Outcome) (out err : String) :
    ∀ (l : List Step) (k base : Nat) (st : Step), l[k]? = some st →
    (∀ j, base ≤ j → j < base + k → passes env j) →
    env (base + k) = .completed 0 out err → out ≠ "" →
    ∃ l1 l2, (runSteps env base l).trace
      = l1 ++ [.print (.banner st.banner), .invoke (base + k) (wslArgv st.command),
               .print (.stdoutPass out), .print (.success st.successMsg), .print .blank]
        ++ l2 := by
  intro l
  induction l with
  | nil => intro k base st hst; exfalso; simp at hst
  | cons s rest ih =>
    intro k base st hst hpass henv hout
    cases k with
    | zero =>
      have hs : s = st := by simpa using hst
      subst hs
      have hbase : env base = .completed 0 out err := by simpa using henv
      refine ⟨[], (runSteps env (base + 1) rest).trace, ?_⟩
      simp [runSteps, hbase, hout]
    | succ k =>
      obtain ⟨o, e, hbase⟩ := hpass base (le_refl base) (by omega)
      have hst' : rest[k]? = some st := by simpa using hst
      have hpass' : ∀ j, base + 1 ≤ j → j < (base + 1) + k → passes env j :=
        fun j h1 h2 => hpass j (by omega) (by omega)
      have henv' : env ((base + 1) + k) = .completed 0 out err := by
        rw [show (base + 1) + k = base + (k + 1) by omega]; exact henv
      obtain ⟨l1', l2', hshape⟩ := ih k (base + 1) st hst' hpass' henv' hout
      refine ⟨[.print (.banner s.banner), .invoke base (wslArgv s.command)]
        ++ (if o = "" then [] else [.print (.stdoutPass o)])
        ++ [.print (.success s.successMsg), .print .blank] ++ l1', l2', ?_⟩
      simp only [runSteps, hbase, reduceIte]
      rw [hshape, show (base + 1) + k = base + (k + 1) by omega]
      simp

/-- The steps invoked in a whole run are those invoked by the step loop: the
two header prints invoke nothing. -/
theorem invoked_eq (env : Nat → Outcome) :
    invoked env = invokedOf (runSteps env 0 steps).trace := by
  simp [invoked, run, invokedOf]

/-- Environment used in witnesses for the stderr-discarding claim. -/
def envA : Nat → Outcome := fun _ => .completed 0 "" "x"

/-- Environment differing from `envA` only in the stderr of passing steps. -/
def envB : Nat → Outcome := fun _ => .completed 0 "" "y"

/-! ### Claims -/

/-- C1: in every run where the steps before the 1-indexed step `k` all pass
and step `k`'s external command returns a non-zero exit code, the commands of
steps `k+1` through 4 are never invoked and the process exits with code 1. -/
theorem C1_first_failure_aborts (env : Nat → Outcome) (k : Nat) (rc : Int)
    (out err : String) (hk1 : 1 ≤ k) (hk4 : k ≤ 4)
    (hpre : ∀ j, j < k - 1 → passes env j)
    (henv : env (k - 1) = .completed rc out err) (hrc : rc ≠ 0) :
    (run env).exitCode = 1 ∧ ∀ j, k ≤ j → j ∉ invoked env := by
  have hlen : k - 1 < steps.length := by simp [steps]; omega
  obtain ⟨l1, _, hexit, hinv⟩ :=
    runSteps_fail env rc out err steps (k - 1) 0 hlen
      (fun j _ h2 => hpre j (by omega)) (by simpa using henv) hrc
  refine ⟨by simpa [run] using hexit, ?_⟩
  intro j hj hmem
  rw [invoked_eq, hinv] at hmem
  simp at hmem
  omega

/-- C1 witness: with every command failing with exit code 2, the run exits
with code 1 and the second step is never invoked. -/
theorem C1_witness : (run envX).exitCode = 1 ∧ 1 ∉ invoked envX := by
  have h := C1_first_failure_aborts envX 1 2 "boom" "bang" (by omega) (by omega)
    (fun j hj => absurd hj (by omega)) rfl (by decide)
  exact ⟨h.1, h.2 1 (by omega)⟩

/-- C2: in every run where all four steps' external commands return exit
code 0, the process exits with code 0 and the final celebratory success
message is printed exactly once. -/
theorem C2_all_pass_success (env : Nat → Outcome)
    (h : ∀ j, j < 4 → passes env j) :
    (run env).exitCode = 0 ∧ countCelebrate (run env).trace = 1 := by
  obtain ⟨hexit, hcount⟩ :=
    runSteps_allPass env steps 0 (fun j _ h2 => h j (by simpa [steps] using h2))
  refine ⟨by simpa [run] using hexit, ?_⟩
  simpa [run, countCelebrate_append, countCelebrate] using hcount

/-- C2 witness: with every command succeeding, the run exits with code 0 and
prints the celebration exactly once. -/
theorem C2_witness : (run envP).exitCode = 0 ∧ countCelebrate (run envP).trace = 1 :=
  C2_all_pass_success envP (fun _ _ => ⟨"ok", "warn", rfl⟩)

/-- C3: in every run, the invoked steps form an initial segment of the fixed
sequence install, build, test, lint, and a step is only invoked once every
earlier step has passed. -/
theorem C3_strict_order (env : Nat → Outcome) :
    (∃ n, n ≤ 4 ∧ invoked env = List.range n) ∧
    ∀ j, j ∈ invoked env → ∀ i, i < j → passes env i := by
  constructor
  · obtain ⟨n, hn, hinv⟩ := runSteps_invoked_range env steps 0
    exact ⟨n, by simpa [steps] using hn, by rw [invoked_eq, hinv]; simp⟩
  · intro j hj i hij
    rw [invoked_eq] at hj
    exact runSteps_invoked_passes env steps 0 j hj i (Nat.zero_le i) hij

/-- C3 witness: with every command succeeding, the fourth step having been
invoked implies the first step passed. -/
theorem C3_witness : passes envP 0 :=
  (C3_strict_order envP).2 3 (by decide) 0 (by omega)

/-- C4: in every run where some step's external command completes with a
non-zero exit code, that exit code is printed, the captured stdout and
stderr are each printed when non-empty before the process exits, and the
process exits with code 1. -/
theorem C4_failure_reporting (env : Nat → Outcome) (k : Nat) (rc : Int)
    (out err : String) (hk : k < 4) (hpre : ∀ j, j < k → passes env j)
    (henv : env k = .completed rc out err) (hrc : rc ≠ 0) :
    Ev.print (Msg.failSummary rc) ∈ (run env).trace ∧
    (out ≠ "" → Ev.print (Msg.failStdout out) ∈ (run env).trace) ∧
    (err ≠ "" → Ev.print (Msg.failStderr err) ∈ (run env).trace) ∧
    (run env).exitCode = 1 := by
  have hlen : k < steps.length := by simpa [steps] using hk
  obtain ⟨l1, hshape, hexit, _⟩ :=
    runSteps_fail env rc out err steps k 0 hlen (fun j _ h2 => hpre j (by omega))
      (by simpa using henv) hrc
  have htr : (run env).trace = [Ev.print Msg.header, Ev.print Msg.blank]
      ++ (runSteps env 0 steps).trace := rfl
  refine ⟨?_, ?_, ?_, by simpa [run] using hexit⟩
  · rw [htr, hshape]; simp
  · intro ho; rw [htr, hshape]; simp [ho]
  · intro he; rw [htr, hshape]; simp [he]

/-- C4 witness: with the install command failing with exit code 2 and
stdout "boom", the stdout dump is printed and the run exits with code 1. -/
theorem C4_witness :
    Ev.print (Msg.failStdout "boom") ∈ (run envX).trace ∧ (run envX).exitCode = 1 := by
  have h := C4_failure_reporting envX 0 2 "boom" "bang" (by omega)
    (fun j hj => absurd hj (by omega)) rfl (by decide)
  exact ⟨h.2.1 (by decide), h.2.2.2⟩

/-- C5 counterexample: when the install command fails with exit code 2,
stdout "boom" and stderr "bang", both dumps are emitted but neither precedes
the generic error summary — the summary is printed first — refuting the
claim that the dumps come before the summary. -/
theorem C5_counterexample :
    (run envX).exitCode = 1 ∧
    Ev.print (Msg.failStdout "boom") ∈ (run envX).trace ∧
    Ev.print (Msg.failStderr "bang") ∈ (run envX).trace ∧
    Ev.print (Msg.failSummary 2) ∈ (run envX).trace ∧
    precedesB (.print (.failStdout "boom")) (.print (.failSummary 2))
      (run envX).trace = false ∧
    precedesB (.print (.failStderr "bang")) (.print (.failSummary 2))
      (run envX).trace = false := by
  decide

/-- C5 amended: in every run where a step's command fails with a non-zero
exit code, the failing step's captured stdout and stderr (if non-empty) are
emitted, prefixed with labeled headers, immediately after the generic error
summary line. -/
theorem C5_amended_streams_after_summary (env : Nat → Outcome) (k : Nat)
    (rc : Int) (out err : String) (hk : k < 4)
    (hpre : ∀ j, j < k → passes env j)
    (henv : env k = .completed rc out err) (hrc : rc ≠ 0) :
    ∃ l1, (run env).trace
      = l1 ++ [Ev.print (Msg.failSummary rc)]
        ++ (if out = "" then []
            else [Ev.print Msg.failOutputHeader, Ev.print (Msg.failStdout out)])
        ++ (if err = "" then []
            else [Ev.print Msg.failErrorHeader, Ev.print (Msg.failStderr err)]) := by
  have hlen : k < steps.length := by simpa [steps] using hk
  obtain ⟨l1, hshape, _, _⟩ :=
    runSteps_fail env rc out err steps k 0 hlen (fun j _ h2 => hpre j (by omega))
      (by simpa using henv) hrc
  refine ⟨[Ev.print Msg.header, Ev.print Msg.blank] ++ l1, ?_⟩
  rw [show (run env).trace = [Ev.print Msg.header, Ev.print Msg.blank]
      ++ (runSteps env 0 steps).trace from rfl, hshape]
  simp

/-- C5 witness: with the install command failing with exit code 2 and
non-empty streams, the trace ends with the summary followed by the labeled
dumps. -/
theorem C5_witness :
    ∃ l1, (run envX).trace
      = l1 ++ [Ev.print (Msg.failSummary 2)]
        ++ (if ("boom" : String) = "" then []
            else [Ev.print Msg.failOutputHeader, Ev.print (Msg.failStdout "boom")])
        ++ (if ("bang" : String) = "" then []
            else [Ev.print Msg.failErrorHeader, Ev.print (Msg.failStderr "bang")]) :=
  C5_amended_streams_after_summary envX 0 2 "boom" "bang" (by omega)
    (fun j hj => absurd hj (by omega)) rfl (by decide)

/-- C6: for every succeeding step with non-empty captured stdout, the trace
contains the contiguous block step banner, invocation, full stdout dump,
success confirmation line, blank separator line — so the stdout is printed
after the banner and before the success line, which a blank line follows. -/
theorem C6_pass_stdout_block (env : Nat → Outcome) (k : Nat) (st : Step)
    (out err : String) (hst : steps[k]? = some st)
    (hpre : ∀ j, j < k → passes env j)
    (henv : env k = .completed 0 out err) (hout : out ≠ "") :
    ∃ l1 l2, (run env).trace
      = l1 ++ [Ev.print (Msg.banner st.banner), Ev.invoke k (wslArgv st.command),
               Ev.print (Msg.stdoutPass out), Ev.print (Msg.success st.successMsg),
               Ev.print Msg.blank] ++ l2 := by
  obtain ⟨l1, l2, hshape⟩ :=
    runSteps_step_block env out err steps k 0 st hst (fun j _ h2 => hpre j (by omega))
      (by simpa using henv) hout
  refine ⟨[Ev.print Msg.header, Ev.print Msg.blank] ++ l1, l2, ?_⟩
  rw [show (run env).trace = [Ev.print Msg.header, Ev.print Msg.blank]
      ++ (runSteps env 0 steps).trace from rfl, hshape]
  simp

/-- C6 witness: with every command succeeding with stdout "ok", the install
step's banner, invocation, stdout dump, success line and blank line appear
as a contiguous block. -/
theorem C6_witness :
    ∃ l1 l2, (run envP).trace
      = l1 ++ [Ev.print (Msg.banner "Step 1: Installing dependencies..."),
               Ev.invoke 0 (wslArgv
                 "cd /home/skynet/freshtrack-pro-local/fresh-staged && npm install"),
               Ev.print (Msg.stdoutPass "ok"),
               Ev.print (Msg.success "✓ Dependencies installed successfully"),
               Ev.print Msg.blank] ++ l2 :=
  C6_pass_stdout_block envP 0
    ⟨"Step 1: Installing dependencies...",
     "cd /home/skynet/freshtrack-pro-local/fresh-staged && npm install",
     "✓ Dependencies installed successfully"⟩ "ok" "warn" rfl
    (fun j hj => absurd hj (by omega)) rfl (by decide)

/-- C7: in every run where attempting to invoke a step raises instead of
completing, the generic top-level handler prints the error's description and
the process exits with code 1. -/
theorem C7_invocation_error (env : Nat → Outcome) (k : Nat) (msg : String)
    (hk : k < 4) (hpre : ∀ j, j < k → passes env j)
    (henv : env k = .raised msg) :
    Ev.print (Msg.genericErr msg) ∈ (run env).trace ∧ (run env).exitCode = 1 := by
  have hlen : k < steps.length := by simpa [steps] using hk
  obtain ⟨l1, hshape, hexit, _⟩ :=
    runSteps_raised env msg steps k 0 hlen (fun j _ h2 => hpre j (by omega))
      (by simpa using henv)
  refine ⟨?_, by simpa [run] using hexit⟩
  rw [show (run env).trace = [Ev.print Msg.header, Ev.print Msg.blank]
      ++ (runSteps env 0 steps).trace from rfl, hshape]
  simp

/-- C7 witness: with the install invocation raising, the error description
is printed and the run exits with code 1. -/
theorem C7_witness :
    Ev.print (Msg.genericErr "wsl not found") ∈ (run envR).trace ∧
    (run envR).exitCode = 1 :=
  C7_invocation_error envR 0 "wsl not found" (by omega)
    (fun j hj => absurd hj (by omega)) rfl

/-- C8: in every run, the process exit code is 0 or 1, and it is 0 exactly
when all four steps' commands return exit code 0. -/
theorem C8_exit_codes (env : Nat → Outcome) :
    ((run env).exitCode = 0 ∨ (run env).exitCode = 1) ∧
    ((run env).exitCode = 0 ↔ ∀ k, k < 4 → passes env k) := by
  obtain ⟨h01, hiff⟩ := runSteps_exit env steps 0
  have hrun : (run env).exitCode = (runSteps env 0 steps).exitCode := rfl
  refine ⟨by rwa [hrun], ?_⟩
  rw [hrun, hiff]
  constructor
  · intro h k hk
    have := h k (by simpa [steps] using hk)
    simpa using this
  · intro h k hk
    have := h k (by simpa [steps] using hk)
    simpa using this

/-- C8 witness: with every command succeeding, the run exits with code 0. -/
theorem C8_witness : (run envP).exitCode = 0 :=
  (C8_exit_codes envP).2.mpr (fun _ _ => ⟨"ok", "warn", rfl⟩)

/-- C9: the captured stderr of a succeeding step is never printed and is
silently discarded: two runs whose environments differ only in the stderr of
passing steps are identical. -/
theorem C9_stderr_discarded (env env' : Nat → Outcome)
    (h : stderrAgnostic env env') : run env = run env' := by
  have hs := runSteps_congr env env' h steps 0
  simp [run, hs]

/-- C9 witness: runs over environments whose passing steps differ only in
their non-empty stderr are identical. -/
theorem C9_witness : run envA = run envB :=
  C9_stderr_discarded envA envB (fun _ => Or.inr ⟨"", "x", "y", rfl, rfl⟩)

/-- C10: in every run, the output begins with the fixed header line followed
by a blank line, emitted before any step banner and before any command is
invoked: the trace starts with exactly these two prints. -/
theorem C10_header_first (env : Nat → Outcome) :
    (∃ r, output env
      = "Running quality gates for freshtrack-pro project..." :: "" :: r) ∧
    (∃ t, (run env).trace = Ev.print Msg.header :: Ev.print Msg.blank :: t) := by
  constructor
  · refine ⟨(runSteps env 0 steps).trace.filterMap fun e =>
      match e with
      | Ev.print m => some (render m)
      | Ev.invoke _ _ => none, ?_⟩
    simp [output, run, render]
  · exact ⟨(runSteps env 0 steps).trace, rfl⟩

end QualityGates
